import Mathlib

/-!
# pastryjs — verification of the cookie serialization and jar operations

Shallow embedding of the pastryjs cookie module (`src/pastry.ts`).
The browser's ambient cookie jar (`document.cookie`) is modelled as an
`Option String` (`none` = no `document` object), and the jar's
assignment semantics as an explicit `write` function parameter.
JavaScript strings are modelled as Lean `String` / `List Char`;
JavaScript number truthiness (`if (maxAge)`) and string truthiness
(`if (domain)`) are modelled explicitly.
-/

namespace Pastry

/-! ## Percent-encoding (JS `encodeURIComponent`) -/

/-- Characters `encodeURIComponent` leaves unescaped:
`A-Z a-z 0-9 - _ . ! ~ * ' ( )`. -/
def isUnreservedChar (c : Char) : Bool :=
  c.isAlpha || c.isDigit || c = '-' || c = '_' || c = '.' || c = '!' ||
  c = '~' || c = '*' || c = Char.ofNat 39 || c = '(' || c = ')'

/-- Upper-case hexadecimal digit for a nibble. -/
def hexChar (n : Nat) : Char :=
  (['0', '1', '2', '3', '4', '5', '6', '7', '8', '9',
    'A', 'B', 'C', 'D', 'E', 'F']).getD n '0'

/-- Numeric value of a hexadecimal digit (upper- or lower-case). -/
def hexVal (c : Char) : Nat :=
  if c.isDigit then c.toNat - 48
  else if 'A' ≤ c && c ≤ 'F' then c.toNat - 55
  else if 'a' ≤ c && c ≤ 'f' then c.toNat - 87
  else 0

/-- UTF-8 byte sequence of a Unicode scalar value. -/
def utf8Bytes (n : Nat) : List Nat :=
  if n < 0x80 then [n]
  else if n < 0x800 then [0xC0 + n / 64, 0x80 + n % 64]
  else if n < 0x10000 then [0xE0 + n / 4096, 0x80 + n / 64 % 64, 0x80 + n % 64]
  else [0xF0 + n / 262144, 0x80 + n / 4096 % 64, 0x80 + n / 64 % 64, 0x80 + n % 64]

/-- Encoding of one character: unreserved characters pass through,
anything else becomes `%XX` for each UTF-8 byte. -/
def encChar (c : Char) : List Char :=
  if isUnreservedChar c then [c]
  else (utf8Bytes c.toNat).foldr
    (fun b acc => '%' :: hexChar (b / 16) :: hexChar (b % 16) :: acc) []

/-- `encodeURIComponent` over a character list. -/
def encodeList : List Char → List Char
  | [] => []
  | c :: rest => encChar c ++ encodeList rest

/-- JS `encodeURIComponent`. -/
def encodeURIComponent (v : String) : String := ⟨encodeList v.data⟩

/-- Percent-decoding over a character list (the spec's `percentDecode`,
adequate for single-byte — ASCII — escapes; a `%` not followed by two
characters passes through). -/
def pctDecode : List Char → List Char
  | [] => []
  | c :: h1 :: h2 :: rest =>
    if c = '%' then Char.ofNat (hexVal h1 * 16 + hexVal h2) :: pctDecode rest
    else c :: pctDecode (h1 :: h2 :: rest)
  | c :: rest => c :: pctDecode rest

/-- The spec's `percentDecode` on strings. -/
def percentDecode (s : String) : String := ⟨pctDecode s.data⟩

example : encodeURIComponent "a b" = "a%20b" := by decide
example : percentDecode "a%20b" = "a b" := by decide
example : encodeURIComponent "x-_.!~" = "x-_.!~" := by decide

/-! ## List-level models of the JS string operations used by the jar code -/

/-- JS `String.prototype.split(sep)` for a one-character separator. -/
def splitOnChar (sep : Char) : List Char → List (List Char)
  | [] => [[]]
  | c :: rest =>
    match splitOnChar sep rest with
    | cur :: others => if c = sep then [] :: cur :: others else (c :: cur) :: others
    | [] => [[c]]

/-- JS `String.prototype.trim()`: strip leading and trailing whitespace. -/
def trimList (l : List Char) : List Char :=
  ((l.dropWhile Char.isWhitespace).reverse.dropWhile Char.isWhitespace).reverse

/-- JS `String.prototype.replace(pat, "")`: remove the FIRST occurrence of
`pat` (other occurrences stay). -/
def replaceFirst (pat : List Char) : List Char → List Char
  | [] => []
  | c :: rest =>
    if pat <+: (c :: rest) then (c :: rest).drop pat.length
    else c :: replaceFirst pat rest

example : splitOnChar ';' "a=1; b=2".data = ["a=1".data, " b=2".data] := by decide
example : trimList " a=1 ".data = "a=1".data := by decide
example : replaceFirst "a=".data " a=xa=y".data = " xa=y".data := by decide

/-! ## Data model: cookie options (`SetWebCookieOptions`, `SetServerCookieOptions`) -/

/-- `sameSite?: "Lax" | "Strict" | "None"`. -/
inductive SameSite where
  | Lax
  | Strict
  | None
deriving DecidableEq

/-- The wire text of a `SameSite` value. -/
def SameSite.str : SameSite → String
  | .Lax => "Lax"
  | .Strict => "Strict"
  | .None => "None"

/-- A JS `Date`, modelled by its `toUTCString()` rendering (the only
operation the module applies to it). As a JS object it is always truthy. -/
structure JsDate where
  utc : String
deriving DecidableEq

/-- `Date.prototype.toUTCString()`. -/
def JsDate.toUTCString (d : JsDate) : String := d.utc

/-- The option object for `set`; absent fields are `none`. -/
structure SetWebCookieOptions where
  domain : Option String := none
  expiry : Option JsDate := none
  maxAge : Option Int := none
  partitioned : Option Bool := none
  path : Option String := none
  sameSite : Option SameSite := none
  secure : Option Bool := none
  httpOnly : Option Bool := none
deriving DecidableEq

/-- The source declares `SetServerCookieOptions` separately but with
exactly the same fields. -/
abbrev SetServerCookieOptions := SetWebCookieOptions

/-! ## The server formatter `_server` (src lines 386–416)

Each `if (x) cookieValue += ...` uses JS truthiness: an absent field,
an empty string, the number `0`, and `false` are all falsy; a `Date`
object is always truthy. -/

/-- The pure server-side formatter: builds the `Set-Cookie` string. -/
def _server (key value : String) (options : Option SetServerCookieOptions) : String :=
  let cookieValue := key ++ "=" ++ encodeURIComponent value
  match options with
  | none => cookieValue
  | some o =>
    let cookieValue := match o.domain with
      | some domain => if domain = "" then cookieValue else cookieValue ++ "; Domain=" ++ domain
      | none => cookieValue
    let cookieValue := match o.expiry with
      | some expiry => cookieValue ++ "; Expires=" ++ expiry.toUTCString
      | none => cookieValue
    let cookieValue := match o.maxAge with
      | some maxAge => if maxAge = 0 then cookieValue else cookieValue ++ "; Max-Age=" ++ toString maxAge
      | none => cookieValue
    let cookieValue := if o.partitioned = some true then cookieValue ++ "; Partitioned" else cookieValue
    let cookieValue := match o.path with
      | some path => if path = "" then cookieValue else cookieValue ++ "; Path=" ++ path
      | none => cookieValue
    let cookieValue := match o.sameSite with
      | some sameSite => cookieValue ++ "; SameSite=" ++ sameSite.str
      | none => cookieValue
    let cookieValue := if o.secure = some true then cookieValue ++ "; Secure" else cookieValue
    let cookieValue := if o.httpOnly = some true then cookieValue ++ "; HttpOnly" else cookieValue
    cookieValue

example : _server "foo" "b r" (some { domain := some "d.com", maxAge := some 3600 })
    = "foo=b%20r; Domain=d.com; Max-Age=3600" := by decide

/-! ## The client jar operations (src lines 242–359)

`document` is modelled as `Option String` (`none`: no DOM, every branch
guarded by `if (document)` fails). The assignment semantics of
`document.cookie = s` are browser magic; they are modelled by an explicit
`write : String → String → String` parameter mapping the old jar and the
assigned cookie string to the new jar snapshot. Operations that may write
return the result together with the new jar. -/

/-- `_set` (src lines 243–279): build the cookie string exactly as
`_server` does, assign it to `document.cookie`, then report whether
`key=encodedValue` appears in the re-read jar. -/
def _set (write : String → String → String) (document : Option String)
    (key value : String) (options : Option SetWebCookieOptions) : Bool × Option String :=
  let cookieValue := key ++ "=" ++ encodeURIComponent value
  let cookieValue := match options with
  | none => cookieValue
  | some o =>
    let cookieValue := match o.domain with
      | some domain => if domain = "" then cookieValue else cookieValue ++ "; Domain=" ++ domain
      | none => cookieValue
    let cookieValue := match o.expiry with
      | some expiry => cookieValue ++ "; Expires=" ++ expiry.toUTCString
      | none => cookieValue
    let cookieValue := match o.maxAge with
      | some maxAge => if maxAge = 0 then cookieValue else cookieValue ++ "; Max-Age=" ++ toString maxAge
      | none => cookieValue
    let cookieValue := if o.partitioned = some true then cookieValue ++ "; Partitioned" else cookieValue
    let cookieValue := match o.path with
      | some path => if path = "" then cookieValue else cookieValue ++ "; Path=" ++ path
      | none => cookieValue
    let cookieValue := match o.sameSite with
      | some sameSite => cookieValue ++ "; SameSite=" ++ sameSite.str
      | none => cookieValue
    let cookieValue := if o.secure = some true then cookieValue ++ "; Secure" else cookieValue
    let cookieValue := if o.httpOnly = some true then cookieValue ++ "; HttpOnly" else cookieValue
    cookieValue
  match document with
  | none => (false, none)
  | some jar =>
    let jar := write jar cookieValue
    if (key ++ "=" ++ encodeURIComponent value).data <:+: jar.data
    then (true, some jar) else (false, some jar)

/-- `_get` (src lines 281–293). The callback passed to `cookies.some`
never returns a value, i.e. returns `undefined` (falsy), so `some` visits
every segment and the assignment leaves the LAST matching segment in
`returnValue`; the match is `replace`d on the untrimmed segment. -/
def _get (document : Option String) (key : String) : Option String :=
  match document with
  | some doc =>
    let cookies := splitOnChar ';' doc.data
    cookies.foldl
      (fun returnValue cookie =>
        if (key.data ++ ['=']) <+: trimList cookie
        then some (⟨replaceFirst (key.data ++ ['=']) cookie⟩ : String)
        else returnValue)
      (none : Option String)
  | none => none

/-- JS truthiness of `_get`'s result (`string | null`): `null` and `""`
are falsy, every other string is truthy. -/
def jsTruthy : Option String → Bool
  | none => false
  | some s => s != ""

/-- `_delete` (src lines 295–304): `switch (!keyExists)` — truthiness test. -/
def _delete (write : String → String → String) (document : Option String)
    (key : String) : Bool × Option String :=
  let keyExists := _get document key
  if jsTruthy keyExists then
    _set write document key "" (some { maxAge := some 0, secure := some false, path := some "/" })
  else (false, document)

/-- `_update` (src lines 306–319): same truthiness guard, then `_set`. -/
def _update (write : String → String → String) (document : Option String)
    (key value : String) (options : Option SetWebCookieOptions) : Bool × Option String :=
  let keyExists := _get document key
  if jsTruthy keyExists then _set write document key value options
  else (false, document)

/-- `_keys` (src lines 321–334): `cookie.split("=")[0].trim()` per segment;
index `[0]` of a JS split always exists. -/
def _keys (document : Option String) : Option (List String) :=
  match document with
  | some doc =>
    if doc.length = 0 then none
    else
      let cookies := splitOnChar ';' doc.data
      let cookieKeys := cookies.map
        (fun cookie => (⟨trimList ((splitOnChar '=' cookie).headD [])⟩ : String))
      if cookieKeys.length = 0 then none else some cookieKeys
  | none => none

/-- Left-to-right traversal that stops at the first `error` — the effect
of an exception thrown inside `Array.prototype.map`. -/
def traverseE (f : α → Except ε β) : List α → Except ε (List β)
  | [] => Except.ok []
  | x :: rest =>
    match f x with
    | Except.error e => Except.error e
    | Except.ok b =>
      match traverseE f rest with
      | Except.error e => Except.error e
      | Except.ok bs => Except.ok (b :: bs)

/-- `_values` (src lines 336–349): `cookie.split("=")[1].trim()` per
segment; when a segment has no `=`, index `[1]` is `undefined` and the
`.trim()` call throws a `TypeError`, modelled as `Except.error`. -/
def _values (document : Option String) : Except String (Option (List String)) :=
  match document with
  | some doc =>
    if doc.length = 0 then Except.ok none
    else
      let cookies := splitOnChar ';' doc.data
      match traverseE (fun cookie =>
          match (splitOnChar '=' cookie).get? 1 with
          | some v => Except.ok (⟨trimList v⟩ : String)
          | none => Except.error "TypeError: undefined has no method trim") cookies with
      | Except.error e => Except.error e
      | Except.ok cookieValues =>
        Except.ok (if cookieValues.length = 0 then none else some cookieValues)
  | none => Except.ok none

example : _get (some "a=1; b=2") "b" = some " 2" := by decide
example : _get (some "a=1;a=2") "a" = some "2" := by decide
example : _get (some "") "missing" = none := by decide
example : _keys (some "a=1; b=2") = some ["a", "b"] := by decide
example : _values (some "a=1; b=2") = Except.ok (some ["1", "2"]) := rfl
example : (_values (some "a=1; junk")).isOk = false := by decide

/-! ## Helper lemmas -/

/-- A fold that overwrites an accumulator at every element satisfying `p`
ends at the last satisfying element. -/
theorem foldl_overwrite {α β : Type} (p : α → Prop) [DecidablePred p] (f : α → β)
    (l : List α) (acc : Option β) :
    l.foldl (fun acc x => if p x then some (f x) else acc) acc
      = match (l.filter (fun x => decide (p x))).getLast? with
        | some x => some (f x)
        | none => acc := by
  induction l generalizing acc with
  | nil => simp
  | cons x t ih =>
    simp only [List.foldl_cons, List.filter_cons]
    by_cases hp : p x
    · simp only [decide_eq_true_eq, if_pos hp, ih]
      cases hfl : t.filter (fun x => decide (p x)) with
      | nil => simp
      | cons y ys =>
        rw [List.getLast?_cons_cons]
        cases hgl : (y :: ys).getLast? with
        | none => exact absurd hgl (by simp)
        | some z => rfl
    · simp [hp, ih]

/-! ## Claim C1 -/

/-- C1: the spec requires `serialize(k, v, {maxAge: 0})` to include
`"; Max-Age=0"`, but `if (maxAge)` treats the falsy `0` as absent: both
the server formatter and the client set path drop the attribute entirely
(evaluated here with a jar-write that keeps exactly the assigned cookie
string, exposing what `_set` writes). -/
theorem c1_maxAge_zero_dropped :
    _server "k" "v" (some { maxAge := some 0 }) = "k=v" ∧
    (_set (fun _ c => c) (some "") "k" "v" (some { maxAge := some 0 })).2 = some "k=v" ∧
    ¬ ("; Max-Age=0".data <:+: (_server "k" "v" (some { maxAge := some 0 })).data) := by
  decide

/-! ## Claim C2 -/

/-- C2 counterexample: the claim says `get` returns the FIRST matching
segment's remainder after stripping `"k="` from the trimmed segment, which
at jar `"a=1;a=2"` would be `"1"` and at `"b=2; a=1"` would be `"1"`; the
code returns the LAST match, and keeps the whitespace of the untrimmed
segment. -/
theorem c2_first_match_counterexample :
    _get (some "a=1;a=2") "a" = some "2" ∧ (some "2" : Option String) ≠ some "1" ∧
    _get (some "b=2; a=1") "a" = some " 1" ∧ (some " 1" : Option String) ≠ some "1" := by
  decide

/-- C2 (amended): `get(k)` splits the snapshot on `";"` and considers the
segments whose trimmed form starts with `"k="`; it returns the LAST such
segment with the first occurrence of `"k="` removed from the untrimmed
segment (whitespace before the cookie name survives into the result), and
`null` when no segment matches or the jar is unavailable. -/
theorem c2_get_returns_last_match (doc key : String) :
    _get none key = none ∧
    _get (some doc) key =
      (((splitOnChar ';' doc.data).filter
          (fun cookie => decide ((key.data ++ ['=']) <+: trimList cookie))).getLast?).map
        (fun cookie => (⟨replaceFirst (key.data ++ ['=']) cookie⟩ : String)) := by
  refine ⟨rfl, ?_⟩
  show (splitOnChar ';' doc.data).foldl _ none = _
  rw [foldl_overwrite (fun cookie => (key.data ++ ['=']) <+: trimList cookie)
    (fun cookie => (⟨replaceFirst (key.data ++ ['=']) cookie⟩ : String))]
  generalize ((splitOnChar ';' doc.data).filter
      (fun cookie => decide ((key.data ++ ['=']) <+: trimList cookie))).getLast? = o
  cases o <;> rfl

/-! ## Claim C7 -/

/-- C7: `keys()` and `values()` return `null` on the empty jar snapshot
and whenever the extracted list is empty; a returned sequence is never
empty. -/
theorem c7_keys_values_never_empty (document : Option String) :
    _keys (some "") = none ∧ _values (some "") = Except.ok none ∧
    (∀ l, _keys document = some l → l ≠ []) ∧
    (∀ l, _values document = Except.ok (some l) → l ≠ []) := by
  refine ⟨rfl, rfl, ?_, ?_⟩
  · intro l h
    cases document with
    | none => simp [_keys] at h
    | some doc =>
      simp only [_keys] at h
      split at h
      · exact absurd h (by simp)
      · split at h
        · exact absurd h (by simp)
        · rename_i hlen
          cases h
          intro hnil
          simp_all
  · intro l h
    cases document with
    | none => simp [_values] at h
    | some doc =>
      simp only [_values] at h
      split at h
      · simp at h
      · split at h
        · simp at h
        · rename_i vs heq
          simp only [Except.ok.injEq] at h
          split at h
          · simp at h
          · rename_i hlen
            cases h
            intro hnil
            simp_all

/-- C7 witness. -/
theorem c7_witness :
    _keys (some "a=1") = some ["a"] ∧ (["a"] : List String) ≠ [] :=
  ⟨by decide, (c7_keys_values_never_empty (some "a=1")).2.2.1 ["a"] (by decide)⟩

/-! ## Claim C9 -/

/-- C9: when key `k` is stored with the empty string as its value,
`get(k)` returns `""` (non-null), yet `delete(k)` and `update(k, v, o)`
both return `false` and leave the jar untouched, because both test
existence by JS truthiness of `get`'s result rather than by comparison
with `null`. -/
theorem c9_empty_value_treated_absent (write : String → String → String)
    (document : Option String) (key value : String)
    (options : Option SetWebCookieOptions)
    (h : _get document key = some "") :
    _get document key ≠ none ∧
    _delete write document key = (false, document) ∧
    _update write document key value options = (false, document) := by
  refine ⟨by simp [h], ?_, ?_⟩ <;>
    simp [_delete, _update, h, jsTruthy]

/-- C9 witness: jar `"a="` stores `a` with the empty value. -/
theorem c9_witness :
    _delete (fun jar c => jar ++ c) (some "a=") "a" = (false, some "a=") :=
  (c9_empty_value_treated_absent (fun jar c => jar ++ c) (some "a=") "a" "x" none
    (by decide)).2.1

/-! ## The attribute list in the spec's order (claims C5, C6) -/

/-- Concatenation of a list of strings. -/
def concatAll : List String → String
  | [] => ""
  | s :: rest => s ++ concatAll rest

/-- The attributes an option set makes the serializer emit, listed in the
spec's fixed order Domain, Expires, Max-Age, Partitioned, Path, SameSite,
Secure, HttpOnly; the per-field guards are the code's truthiness tests. -/
def cookieAttrs (o : SetWebCookieOptions) : List String :=
  (match o.domain with
    | some d => if d = "" then [] else ["; Domain=" ++ d]
    | none => []) ++
  (match o.expiry with
    | some e => ["; Expires=" ++ e.toUTCString]
    | none => []) ++
  (match o.maxAge with
    | some n => if n = 0 then [] else ["; Max-Age=" ++ toString n]
    | none => []) ++
  (if o.partitioned = some true then ["; Partitioned"] else []) ++
  (match o.path with
    | some p => if p = "" then [] else ["; Path=" ++ p]
    | none => []) ++
  (match o.sameSite with
    | some s => ["; SameSite=" ++ s.str]
    | none => []) ++
  (if o.secure = some true then ["; Secure"] else []) ++
  (if o.httpOnly = some true then ["; HttpOnly"] else [])

theorem concatAll_append (l₁ l₂ : List String) :
    concatAll (l₁ ++ l₂) = concatAll l₁ ++ concatAll l₂ := by
  induction l₁ with
  | nil => simp [concatAll]
  | cons s rest ih => simp [concatAll, ih, String.append_assoc]

theorem attrStep_domain (s : String) (dom : Option String) :
    (match dom with
     | some d => if d = "" then s else s ++ "; Domain=" ++ d
     | none => s)
    = s ++ concatAll (match dom with
     | some d => if d = "" then [] else ["; Domain=" ++ d]
     | none => []) := by
  rcases dom with _ | d
  · simp [concatAll]
  · by_cases hd : d = "" <;> simp [hd, concatAll, String.append_assoc]

theorem attrStep_expiry (s : String) (exp : Option JsDate) :
    (match exp with
     | some e => s ++ "; Expires=" ++ e.toUTCString
     | none => s)
    = s ++ concatAll (match exp with
     | some e => ["; Expires=" ++ e.toUTCString]
     | none => []) := by
  rcases exp with _ | e <;> simp [concatAll, String.append_assoc]

theorem attrStep_maxAge (s : String) (ma : Option Int) :
    (match ma with
     | some n => if n = 0 then s else s ++ "; Max-Age=" ++ toString n
     | none => s)
    = s ++ concatAll (match ma with
     | some n => if n = 0 then [] else ["; Max-Age=" ++ toString n]
     | none => []) := by
  rcases ma with _ | n
  · simp [concatAll]
  · by_cases hn : n = 0 <;> simp [hn, concatAll, String.append_assoc]

theorem attrStep_path (s : String) (path : Option String) :
    (match path with
     | some p => if p = "" then s else s ++ "; Path=" ++ p
     | none => s)
    = s ++ concatAll (match path with
     | some p => if p = "" then [] else ["; Path=" ++ p]
     | none => []) := by
  rcases path with _ | p
  · simp [concatAll]
  · by_cases hp : p = "" <;> simp [hp, concatAll, String.append_assoc]

theorem attrStep_sameSite (s : String) (ss : Option SameSite) :
    (match ss with
     | some v => s ++ "; SameSite=" ++ v.str
     | none => s)
    = s ++ concatAll (match ss with
     | some v => ["; SameSite=" ++ v.str]
     | none => []) := by
  rcases ss with _ | v <;> simp [concatAll, String.append_assoc]

theorem attrStep_flag (s t : String) (b : Option Bool) :
    (if b = some true then s ++ t else s)
    = s ++ concatAll (if b = some true then [t] else []) := by
  by_cases hb : b = some true <;> simp [hb, concatAll]

/-- The second component of `_set` on an available jar: exactly the
`_server` string is handed to the jar write. -/
theorem set_writes_serialized (write : String → String → String) (jar : String)
    (key value : String) (options : Option SetWebCookieOptions) :
    (_set write (some jar) key value options).2
      = some (write jar (_server key value options)) := by
  have h : _set write (some jar) key value options
      = if (key ++ "=" ++ encodeURIComponent value).data
            <:+: (write jar (_server key value options)).data
        then (true, some (write jar (_server key value options)))
        else (false, some (write jar (_server key value options))) := rfl
  rw [h]
  split <;> rfl

/-! ## Claim C5 -/

/-- C5: for every key, value and option set, `_server` is the base
`key=encodedValue` followed by the emitted attributes in exactly the fixed
order Domain, Expires, Max-Age, Partitioned, Path, SameSite, Secure,
HttpOnly (and the client set path writes that same deterministic string). -/
theorem c5_attribute_order (key value : String) (o : SetWebCookieOptions)
    (write : String → String → String) (jar : String) :
    _server key value (some o)
      = (key ++ "=" ++ encodeURIComponent value) ++ concatAll (cookieAttrs o) ∧
    (_set write (some jar) key value (some o)).2
      = some (write jar
          ((key ++ "=" ++ encodeURIComponent value) ++ concatAll (cookieAttrs o))) := by
  have hmain : _server key value (some o)
      = (key ++ "=" ++ encodeURIComponent value) ++ concatAll (cookieAttrs o) := by
    show (if o.httpOnly = some true then _ ++ "; HttpOnly" else _) = _
    rw [attrStep_flag, attrStep_flag, attrStep_sameSite, attrStep_path,
      attrStep_flag, attrStep_maxAge, attrStep_expiry, attrStep_domain]
    simp only [cookieAttrs]
    simp [concatAll_append, String.append_assoc]
  exact ⟨hmain, by rw [set_writes_serialized, hmain]⟩

/-! ## Claim C8 -/

/-- C8: the pure server formatter and the client set path construct the
same string: `_set` hands exactly `_server key value options` to the jar
write, and its boolean result is the verification re-read of that very
string — the two serialization routines are identical, `_set` merely adds
the ambient write and verification. -/
theorem c8_formatter_refines_set (key value : String)
    (options : Option SetWebCookieOptions) (write : String → String → String)
    (jar : String) :
    (_set write (some jar) key value options).2
      = some (write jar (_server key value options)) ∧
    ((_set write (some jar) key value options).1 = true ↔
      (key ++ "=" ++ encodeURIComponent value).data
        <:+: (write jar (_server key value options)).data) := by
  refine ⟨set_writes_serialized write jar key value options, ?_⟩
  have h : _set write (some jar) key value options
      = if (key ++ "=" ++ encodeURIComponent value).data
            <:+: (write jar (_server key value options)).data
        then (true, some (write jar (_server key value options)))
        else (false, some (write jar (_server key value options))) := rfl
  rw [h]
  split <;> simp_all

/-! ## Claim C4 -/

/-- C4 counterexample: the claim says a present cookie makes `delete`
call `set` and return its result, but on jar `"a="` the key `a` IS
present (`get` returns `""`, not null) and `delete` still returns `false`
without writing, and differs from what the prescribed `set` call returns:
the truthiness guard, not a null comparison, decides. -/
theorem c4_present_counterexample :
    _get (some "a=") "a" = some "" ∧
    _get (some "a=") "a" ≠ none ∧
    _delete (fun jar c => jar ++ "; " ++ c) (some "a=") "a" = (false, some "a=") ∧
    _delete (fun jar c => jar ++ "; " ++ c) (some "a=") "a"
      ≠ _set (fun jar c => jar ++ "; " ++ c) (some "a=") "a" ""
          (some { maxAge := some 0, secure := some false, path := some "/" }) := by
  decide

/-- C4 (amended): if `get(k)` returns `null` — or the empty string, which
the truthiness test cannot tell apart from `null` — `delete(k)` returns
`false` without writing to the jar; if `get(k)` returns a non-empty
string, `delete(k)` calls `set(k, "", {maxAge: 0, secure: false,
path: "/"})` with exactly those hardcoded options and returns that call's
result. -/
theorem c4_delete_guard (write : String → String → String)
    (document : Option String) (key : String) :
    ((_get document key = none ∨ _get document key = some "") →
      _delete write document key = (false, document)) ∧
    (∀ s, _get document key = some s → s ≠ "" →
      _delete write document key
        = _set write document key ""
            (some { maxAge := some 0, secure := some false, path := some "/" })) := by
  constructor
  · rintro (h | h) <;> simp [_delete, h, jsTruthy]
  · intro s h hs
    simp [_delete, h, jsTruthy, hs]

/-- C4 witness: on jar `"b=1"` the key `b` is present with value `"1"`,
and `delete` agrees with the prescribed `set` call. -/
theorem c4_witness :
    _delete (fun _ c => c) (some "b=1") "b"
      = _set (fun _ c => c) (some "b=1") "b" ""
          (some { maxAge := some 0, secure := some false, path := some "/" }) :=
  (c4_delete_guard (fun _ c => c) (some "b=1") "b").2 "1" (by decide) (by decide)

/-! ## Lemmas on `splitOnChar` and `traverseE` (claim C10) -/

theorem splitOnChar_ne_nil (sep : Char) (l : List Char) : splitOnChar sep l ≠ [] := by
  induction l with
  | nil => simp [splitOnChar]
  | cons c rest ih =>
    simp only [splitOnChar]
    cases h : splitOnChar sep rest with
    | nil => simp
    | cons cur others => by_cases hc : c = sep <;> simp [hc]

theorem splitOnChar_no_sep (sep : Char) (l : List Char) (h : sep ∉ l) :
    splitOnChar sep l = [l] := by
  induction l with
  | nil => rfl
  | cons c rest ih =>
    have hc : c ≠ sep := fun hcs => h (hcs ▸ List.mem_cons_self c rest)
    have hr : sep ∉ rest := fun hm => h (List.mem_cons_of_mem c hm)
    simp only [splitOnChar, ih hr]
    simp [hc]

theorem splitOnChar_length_of_mem (sep : Char) (l : List Char) (h : sep ∈ l) :
    2 ≤ (splitOnChar sep l).length := by
  induction l with
  | nil => simp at h
  | cons c rest ih =>
    simp only [splitOnChar]
    cases hs : splitOnChar sep rest with
    | nil => exact absurd hs (splitOnChar_ne_nil sep rest)
    | cons cur others =>
      by_cases hc : c = sep
      · simp [hc]
      · rcases List.mem_cons.mp h with h1 | h2
        · exact absurd h1.symm hc
        · have h3 := ih h2
          rw [hs] at h3
          simp only [hc, if_false]
          simpa using h3

theorem traverseE_error_of_mem {α β ε : Type} (f : α → Except ε β) (l : List α)
    (x : α) (hx : x ∈ l) (e : ε) (hfx : f x = Except.error e) :
    ∃ e', traverseE f l = Except.error e' := by
  induction l with
  | nil => simp at hx
  | cons y t ih =>
    simp only [traverseE]
    cases hfy : f y with
    | error e2 => exact ⟨e2, rfl⟩
    | ok b =>
      rcases List.mem_cons.mp hx with rfl | hxt
      · simp [hfy] at hfx
      · obtain ⟨e', he'⟩ := ih hxt
        rw [he']
        exact ⟨e', rfl⟩

theorem traverseE_ok_of_all {α β ε : Type} (f : α → Except ε β) (l : List α)
    (h : ∀ x ∈ l, ∃ b, f x = Except.ok b) :
    ∃ bs, traverseE f l = Except.ok bs := by
  induction l with
  | nil => exact ⟨[], rfl⟩
  | cons y t ih =>
    obtain ⟨b, hb⟩ := h y (List.mem_cons_self y t)
    obtain ⟨bs, hbs⟩ := ih (fun x hx => h x (List.mem_cons_of_mem y hx))
    refine ⟨b :: bs, ?_⟩
    simp only [traverseE, hb, hbs]

/-! ## Claim C10 -/

/-- C10: on a non-empty snapshot containing a segment without `"="`,
`values()` raises (the `[1]` index of the split is `undefined` and
`.trim()` on it throws), while `keys()` on the same snapshot returns
normally and contains the whole trimmed segment as a key; and `values()`
returns normally whenever every segment contains `"="`. -/
theorem c10_values_crashes_without_eq (s : String) (seg : List Char)
    (hs : s ≠ "") (hmem : seg ∈ splitOnChar ';' s.data) (hne : '=' ∉ seg) :
    (∃ e, _values (some s) = Except.error e) ∧
    (∃ l, _keys (some s) = some l ∧ (⟨trimList seg⟩ : String) ∈ l) ∧
    (∀ t : String, (∀ sg ∈ splitOnChar ';' t.data, '=' ∈ sg) →
      ∃ r, _values (some t) = Except.ok r) := by
  have hlen : ¬ s.length = 0 := by
    intro h0
    exact hs (String.ext (List.length_eq_zero.mp h0))
  refine ⟨?_, ?_, ?_⟩
  · have hferr : (match (splitOnChar '=' seg).get? 1 with
        | some v => Except.ok (⟨trimList v⟩ : String)
        | none => Except.error "TypeError: undefined has no method trim")
        = (Except.error "TypeError: undefined has no method trim" :
            Except String String) := by
      rw [splitOnChar_no_sep '=' seg hne]
      rfl
    obtain ⟨e', he'⟩ := traverseE_error_of_mem
      (fun cookie => match (splitOnChar '=' cookie).get? 1 with
        | some v => Except.ok (⟨trimList v⟩ : String)
        | none => Except.error "TypeError: undefined has no method trim")
      (splitOnChar ';' s.data) seg hmem _ hferr
    refine ⟨e', ?_⟩
    simp only [_values, hlen, if_false, he']
  · refine ⟨(splitOnChar ';' s.data).map
      (fun cookie => (⟨trimList ((splitOnChar '=' cookie).headD [])⟩ : String)), ?_, ?_⟩
    · simp only [_keys, hlen, if_false]
      rw [if_neg]
      intro hmapnil
      rw [List.length_map, List.length_eq_zero] at hmapnil
      exact splitOnChar_ne_nil ';' s.data hmapnil
    · have : (⟨trimList seg⟩ : String)
          = (⟨trimList ((splitOnChar '=' seg).headD [])⟩ : String) := by
        rw [splitOnChar_no_sep '=' seg hne]
        rfl
      rw [this]
      exact List.mem_map_of_mem _ hmem
  · intro t ht
    by_cases ht0 : t.length = 0
    · exact ⟨none, by simp [_values, ht0]⟩
    · have hall : ∀ sg ∈ splitOnChar ';' t.data,
          ∃ b, (match (splitOnChar '=' sg).get? 1 with
            | some v => Except.ok (⟨trimList v⟩ : String)
            | none => Except.error "TypeError: undefined has no method trim")
            = Except.ok b := by
        intro sg hsg
        have h2 := splitOnChar_length_of_mem '=' sg (ht sg hsg)
        match hsp : splitOnChar '=' sg with
        | [] => exact absurd hsp (splitOnChar_ne_nil '=' sg)
        | [a] => rw [hsp] at h2; simp at h2
        | a :: b :: rest => exact ⟨⟨trimList b⟩, rfl⟩
      obtain ⟨bs, hbs⟩ := traverseE_ok_of_all _ (splitOnChar ';' t.data) hall
      refine ⟨if bs.length = 0 then none else some bs, ?_⟩
      simp only [_values, ht0, if_false, hbs]

/-- C10 witness: jar `"a=1; junk"` has a segment without `"="`. -/
theorem c10_witness : ∃ e, _values (some "a=1; junk") = Except.error e :=
  (c10_values_crashes_without_eq "a=1; junk" " junk".data (by decide) (by decide)
    (by decide)).1

/-! ## Round trip of the percent-encoding (claim C3) -/

theorem hexVal_hexChar : ∀ m, m < 16 → hexVal (hexChar m) = m := by decide

theorem pctDecode_cons (c : Char) (t : List Char) (hc : c ≠ '%') :
    pctDecode (c :: t) = c :: pctDecode t := by
  match t with
  | [] => rfl
  | [x] => rfl
  | x :: y :: t2 => simp [pctDecode, hc]

theorem pctDecode_escape (h1 h2 : Char) (rest : List Char) :
    pctDecode ('%' :: h1 :: h2 :: rest)
      = Char.ofNat (hexVal h1 * 16 + hexVal h2) :: pctDecode rest := by
  simp [pctDecode]

/-- Decoding inverts encoding on printable ASCII characters. -/
theorem pctDecode_encodeList (l : List Char)
    (h : ∀ c ∈ l, 0x20 ≤ c.toNat ∧ c.toNat ≤ 0x7e) :
    pctDecode (encodeList l) = l := by
  induction l with
  | nil => rfl
  | cons c rest ih =>
    have hc := h c (List.mem_cons_self c rest)
    have hrest := fun x hx => h x (List.mem_cons_of_mem c hx)
    rw [encodeList]
    by_cases hu : isUnreservedChar c
    · have henc : encChar c = [c] := by simp [encChar, hu]
      have hcp : c ≠ '%' := by
        intro heq
        rw [heq] at hu
        exact absurd hu (by decide)
      rw [henc, List.singleton_append, pctDecode_cons c _ hcp, ih hrest]
    · have hlt : c.toNat < 0x80 := by omega
      have hbytes : utf8Bytes c.toNat = [c.toNat] := by simp [utf8Bytes, hlt]
      have henc : encChar c = ['%', hexChar (c.toNat / 16), hexChar (c.toNat % 16)] := by
        simp [encChar, hu, hbytes]
      have hsplit : c.toNat / 16 * 16 + c.toNat % 16 = c.toNat := by omega
      rw [henc, List.cons_append, List.cons_append, List.cons_append, List.nil_append,
        pctDecode_escape,
        hexVal_hexChar _ (by omega), hexVal_hexChar _ (Nat.mod_lt _ (by norm_num)),
        hsplit, Char.ofNat_toNat, ih hrest]

/-! ## Claim C3 -/

/-- C3: with no options the serializer returns exactly
`k ++ "=" ++ encodeURIComponent v` — the key is never encoded — and for
every printable (ASCII 0x20–0x7e) value, percent-decoding the output
after stripping the `"k="` prefix yields `v` again. -/
theorem c3_no_options_roundtrip (k v : String)
    (hv : ∀ c ∈ v.data, 0x20 ≤ c.toNat ∧ c.toNat ≤ 0x7e) :
    _server k v none = k ++ "=" ++ encodeURIComponent v ∧
    percentDecode ⟨(_server k v none).data.drop (k ++ "=").data.length⟩ = v := by
  refine ⟨rfl, ?_⟩
  have hdata : (_server k v none).data
      = (k ++ "=").data ++ (encodeURIComponent v).data := by
    show (k ++ "=" ++ encodeURIComponent v).data = _
    rw [String.data_append]
  rw [hdata, List.drop_left]
  show String.mk (pctDecode (encodeList v.data)) = v
  rw [pctDecode_encodeList v.data hv]

/-- C3 witness: `v = "a b"` (the space is escaped and decoded back). -/
theorem c3_witness :
    percentDecode ⟨(_server "k" "a b" none).data.drop ("k" ++ "=").data.length⟩
      = "a b" :=
  (c3_no_options_roundtrip "k" "a b" (by decide)).2

/-! ## Occurrences of "Secure" (claim C6) -/

/-- The characters of `"Secure"`. -/
def secChars : List Char := ['S', 'e', 'c', 'u', 'r', 'e']

theorem utf8Bytes_lt (n : Nat) (hn : n < 1114112) : ∀ b ∈ utf8Bytes n, b < 256 := by
  intro b hb
  unfold utf8Bytes at hb
  split_ifs at hb with h1 h2 h3
  · simp at hb
    omega
  · have hd : n / 64 < 32 := Nat.div_lt_of_lt_mul (by omega)
    have hm : n % 64 < 64 := Nat.mod_lt _ (by norm_num)
    simp at hb
    rcases hb with rfl | rfl <;> omega
  · have hd : n / 4096 < 16 := Nat.div_lt_of_lt_mul (by omega)
    have hm1 : n / 64 % 64 < 64 := Nat.mod_lt _ (by norm_num)
    have hm2 : n % 64 < 64 := Nat.mod_lt _ (by norm_num)
    simp at hb
    rcases hb with rfl | rfl | rfl <;> omega
  · have hd : n / 262144 < 5 := Nat.div_lt_of_lt_mul (by omega)
    have hm1 : n / 4096 % 64 < 64 := Nat.mod_lt _ (by norm_num)
    have hm2 : n / 64 % 64 < 64 := Nat.mod_lt _ (by norm_num)
    have hm3 : n % 64 < 64 := Nat.mod_lt _ (by norm_num)
    simp at hb
    rcases hb with rfl | rfl | rfl | rfl <;> omega

theorem char_toNat_lt (c : Char) : c.toNat < 1114112 := by
  have h : c.val.toNat < 1114112 := by
    have hv := c.valid
    unfold UInt32.isValidChar Nat.isValidChar at hv
    rcases hv with h | ⟨h1, h2⟩ <;> omega
  exact h

theorem utf8Bytes_ne_nil (n : Nat) : utf8Bytes n ≠ [] := by
  unfold utf8Bytes
  split_ifs <;> simp

theorem chunkFoldr_append (bs : List Nat) (Y : List Char) :
    (bs.foldr (fun b acc => '%' :: hexChar (b / 16) :: hexChar (b % 16) :: acc) []) ++ Y
      = bs.foldr (fun b acc => '%' :: hexChar (b / 16) :: hexChar (b % 16) :: acc) Y := by
  induction bs with
  | nil => rfl
  | cons b rest ih => simp [List.foldr_cons, ih]

theorem hexChar_ne_S : ∀ m, m < 16 → hexChar m ≠ 'S' := by decide

/-- If a pattern avoiding `c` is a prefix of `a ++ c :: b`, it is a prefix
of `a`. -/
theorem prefix_of_append_cons (t a b : List Char) (c : Char) (hc : c ∉ t)
    (h : t <+: a ++ c :: b) : t <+: a := by
  induction a generalizing t with
  | nil =>
    cases t with
    | nil => exact List.nil_prefix
    | cons d t2 =>
      have hd := (List.cons_prefix_cons.mp h).1
      exact absurd (hd ▸ List.mem_cons_self d t2) hc
  | cons x a2 ih =>
    cases t with
    | nil => exact List.nil_prefix
    | cons d t2 =>
      obtain ⟨hd, htl⟩ := List.cons_prefix_cons.mp h
      have hc2 : c ∉ t2 := fun hm => hc (List.mem_cons_of_mem d hm)
      exact List.cons_prefix_cons.mpr ⟨hd, ih t2 hc2 htl⟩

/-- An occurrence of a pattern avoiding `c` inside `a ++ c :: b` lies
entirely inside `a` or entirely inside `b`. -/
theorem infix_append_cons (t a b : List Char) (c : Char) (hc : c ∉ t)
    (h : t <:+: a ++ c :: b) : t <:+: a ∨ t <:+: b := by
  induction a with
  | nil =>
    rcases List.infix_cons_iff.mp h with hp | hi
    · cases t with
      | nil => exact Or.inl (List.nil_prefix.isInfix)
      | cons d t2 =>
        have hd := (List.cons_prefix_cons.mp hp).1
        exact absurd (hd ▸ List.mem_cons_self d t2) hc
    · exact Or.inr hi
  | cons x a2 ih =>
    rcases List.infix_cons_iff.mp h with hp | hi
    · exact Or.inl ((prefix_of_append_cons t (x :: a2) b c hc hp).isInfix)
    · rcases ih hi with h1 | h2
      · exact Or.inl (List.infix_cons h1)
      · exact Or.inr h2

/-- A `%`-free prefix of the encoded text is a prefix of the source text. -/
theorem prefix_encodeList (t l : List Char) (ht : '%' ∉ t)
    (h : t <+: encodeList l) : t <+: l := by
  induction l generalizing t with
  | nil =>
    rw [List.prefix_nil.mp h]
  | cons c rest ih =>
    cases t with
    | nil => exact List.nil_prefix
    | cons d t2 =>
      rw [encodeList] at h
      by_cases hu : isUnreservedChar c
      · rw [show encChar c = [c] by simp [encChar, hu], List.singleton_append] at h
        obtain ⟨hd, htl⟩ := List.cons_prefix_cons.mp h
        have ht2 : '%' ∉ t2 := fun hm => ht (List.mem_cons_of_mem d hm)
        exact List.cons_prefix_cons.mpr ⟨hd, ih t2 ht2 htl⟩
      · cases hbs : utf8Bytes c.toNat with
        | nil => exact absurd hbs (utf8Bytes_ne_nil _)
        | cons b bs2 =>
          rw [show encChar c
              = '%' :: hexChar (b / 16) :: hexChar (b % 16)
                :: bs2.foldr (fun b acc => '%' :: hexChar (b / 16) :: hexChar (b % 16) :: acc) []
            by simp [encChar, hu, hbs], List.cons_append] at h
          have hd := (List.cons_prefix_cons.mp h).1
          exact absurd (hd ▸ List.mem_cons_self d t2) ht

/-- `"Secure"` cannot occur inside a run of `%XX` escape chunks followed
by a tail it does not occur in: `S` is neither `%` nor an upper-case hex
digit. -/
theorem secChars_not_infix_chunks (bs : List Nat) (hbs : ∀ b ∈ bs, b < 256)
    (Y : List Char) (hY : ¬ secChars <:+: Y) :
    ¬ secChars <:+: bs.foldr
        (fun b acc => '%' :: hexChar (b / 16) :: hexChar (b % 16) :: acc) Y := by
  induction bs with
  | nil => exact hY
  | cons b rest ih =>
    have hb : b < 256 := hbs b (List.mem_cons_self b rest)
    have hrest : ∀ x ∈ rest, x < 256 := fun x hx => hbs x (List.mem_cons_of_mem b hx)
    intro hh
    rw [List.foldr_cons] at hh
    rcases List.infix_cons_iff.mp hh with hp | hh2
    · exact absurd (List.cons_prefix_cons.mp hp).1 (by decide)
    rcases List.infix_cons_iff.mp hh2 with hp | hh3
    · exact absurd (List.cons_prefix_cons.mp hp).1
        (hexChar_ne_S (b / 16) (Nat.div_lt_of_lt_mul (by omega)) ∘ Eq.symm)
    rcases List.infix_cons_iff.mp hh3 with hp | hh4
    · exact absurd (List.cons_prefix_cons.mp hp).1
        (hexChar_ne_S (b % 16) (Nat.mod_lt _ (by norm_num)) ∘ Eq.symm)
    · exact ih hrest hh4

/-- Percent-encoding cannot create an occurrence of `"Secure"`. -/
theorem secChars_not_infix_encodeList (l : List Char) (h : ¬ secChars <:+: l) :
    ¬ secChars <:+: encodeList l := by
  induction l with
  | nil =>
    intro hh
    exact absurd (List.infix_nil.mp hh) (by decide)
  | cons c rest ih =>
    have hrest : ¬ secChars <:+: rest := fun hr => h (List.infix_cons hr)
    intro hh
    rw [encodeList] at hh
    by_cases hu : isUnreservedChar c
    · rw [show encChar c = [c] by simp [encChar, hu], List.singleton_append] at hh
      rcases List.infix_cons_iff.mp hh with hp | hh2
      · have hp2 : secChars <+: encodeList (c :: rest) := by
          rw [encodeList, show encChar c = [c] by simp [encChar, hu],
            List.singleton_append]
          exact hp
        exact h ((prefix_encodeList secChars (c :: rest) (by decide) hp2).isInfix)
      · exact ih hrest hh2
    · cases hbs : utf8Bytes c.toNat with
      | nil => exact absurd hbs (utf8Bytes_ne_nil _)
      | cons b bs2 =>
        rw [show encChar c = (b :: bs2).foldr
              (fun b acc => '%' :: hexChar (b / 16) :: hexChar (b % 16) :: acc) []
            by simp [encChar, hu, hbs], chunkFoldr_append] at hh
        have hbound : ∀ x ∈ b :: bs2, x < 256 := by
          rw [← hbs]
          exact utf8Bytes_lt c.toNat (char_toNat_lt c)
        exact secChars_not_infix_chunks (b :: bs2) hbound (encodeList rest)
          (ih hrest) hh

/-- A string extending a prefix `p` cannot equal a string `q` that `p` is
not a prefix of. -/
theorem append_ne_of_not_pfx (p x q : String) (hp : ¬ (p.data <+: q.data)) :
    p ++ x ≠ q := by
  intro he
  apply hp
  rw [← he, String.data_append]
  exact List.prefix_append p.data x.data

/-- Every element of `cookieAttrs` has one of the eight attribute shapes;
the boolean flags appear exactly under their truthiness conditions. -/
theorem mem_cookieAttrs (o : SetWebCookieOptions) (x : String)
    (hx : x ∈ cookieAttrs o) :
    (∃ d, x = "; Domain=" ++ d) ∨ (∃ u, x = "; Expires=" ++ u) ∨
    (∃ m, x = "; Max-Age=" ++ m) ∨ (x = "; Partitioned" ∧ o.partitioned = some true) ∨
    (∃ p, x = "; Path=" ++ p) ∨ (∃ s, x = "; SameSite=" ++ s) ∨
    (x = "; Secure" ∧ o.secure = some true) ∨
    (x = "; HttpOnly" ∧ o.httpOnly = some true) := by
  simp only [cookieAttrs, List.mem_append] at hx
  rcases hx with ((((((h | h) | h) | h) | h) | h) | h) | h
  · rcases hdom : o.domain with _ | d <;> simp only [hdom] at h
    · simp at h
    · by_cases hd : d = ""
      · simp [hd] at h
      · rw [if_neg hd] at h
        exact Or.inl ⟨d, List.mem_singleton.mp h⟩
  · rcases hexp : o.expiry with _ | e <;> simp only [hexp] at h
    · simp at h
    · exact Or.inr (Or.inl ⟨e.toUTCString, List.mem_singleton.mp h⟩)
  · rcases hma : o.maxAge with _ | n <;> simp only [hma] at h
    · simp at h
    · by_cases hn : n = 0
      · simp [hn] at h
      · rw [if_neg hn] at h
        exact Or.inr (Or.inr (Or.inl ⟨toString n, List.mem_singleton.mp h⟩))
  · by_cases hp : o.partitioned = some true
    · rw [if_pos hp] at h
      exact Or.inr (Or.inr (Or.inr (Or.inl ⟨List.mem_singleton.mp h, hp⟩)))
    · rw [if_neg hp] at h
      simp at h
  · rcases hpath : o.path with _ | p <;> simp only [hpath] at h
    · simp at h
    · by_cases hps : p = ""
      · simp [hps] at h
      · rw [if_neg hps] at h
        exact Or.inr (Or.inr (Or.inr (Or.inr (Or.inl ⟨p, List.mem_singleton.mp h⟩))))
  · rcases hss : o.sameSite with _ | s <;> simp only [hss] at h
    · simp at h
    · exact Or.inr (Or.inr (Or.inr (Or.inr (Or.inr (Or.inl
        ⟨s.str, List.mem_singleton.mp h⟩)))))
  · by_cases hs : o.secure = some true
    · rw [if_pos hs] at h
      exact Or.inr (Or.inr (Or.inr (Or.inr (Or.inr (Or.inr (Or.inl
        ⟨List.mem_singleton.mp h, hs⟩))))))
    · rw [if_neg hs] at h
      simp at h
  · by_cases hh : o.httpOnly = some true
    · rw [if_pos hh] at h
      exact Or.inr (Or.inr (Or.inr (Or.inr (Or.inr (Or.inr (Or.inr
        ⟨List.mem_singleton.mp h, hh⟩))))))
    · rw [if_neg hh] at h
      simp at h

theorem partitioned_mem_iff (o : SetWebCookieOptions) :
    "; Partitioned" ∈ cookieAttrs o ↔ o.partitioned = some true := by
  constructor
  · intro hx
    rcases mem_cookieAttrs o _ hx with ⟨d, hd⟩ | ⟨u, hu⟩ | ⟨m, hm⟩ | ⟨_, h2⟩ |
      ⟨p, hp⟩ | ⟨s, hs⟩ | ⟨h1, _⟩ | ⟨h1, _⟩
    · exact absurd hd.symm (append_ne_of_not_pfx "; Domain=" d _ (by decide))
    · exact absurd hu.symm (append_ne_of_not_pfx "; Expires=" u _ (by decide))
    · exact absurd hm.symm (append_ne_of_not_pfx "; Max-Age=" m _ (by decide))
    · exact h2
    · exact absurd hp.symm (append_ne_of_not_pfx "; Path=" p _ (by decide))
    · exact absurd hs.symm (append_ne_of_not_pfx "; SameSite=" s _ (by decide))
    · exact absurd h1 (by decide)
    · exact absurd h1 (by decide)
  · intro h
    simp [cookieAttrs, h]

theorem secure_mem_iff (o : SetWebCookieOptions) :
    "; Secure" ∈ cookieAttrs o ↔ o.secure = some true := by
  constructor
  · intro hx
    rcases mem_cookieAttrs o _ hx with ⟨d, hd⟩ | ⟨u, hu⟩ | ⟨m, hm⟩ | ⟨h1, _⟩ |
      ⟨p, hp⟩ | ⟨s, hs⟩ | ⟨_, h2⟩ | ⟨h1, _⟩
    · exact absurd hd.symm (append_ne_of_not_pfx "; Domain=" d _ (by decide))
    · exact absurd hu.symm (append_ne_of_not_pfx "; Expires=" u _ (by decide))
    · exact absurd hm.symm (append_ne_of_not_pfx "; Max-Age=" m _ (by decide))
    · exact absurd h1 (by decide)
    · exact absurd hp.symm (append_ne_of_not_pfx "; Path=" p _ (by decide))
    · exact absurd hs.symm (append_ne_of_not_pfx "; SameSite=" s _ (by decide))
    · exact h2
    · exact absurd h1 (by decide)
  · intro h
    simp [cookieAttrs, h]

theorem httpOnly_mem_iff (o : SetWebCookieOptions) :
    "; HttpOnly" ∈ cookieAttrs o ↔ o.httpOnly = some true := by
  constructor
  · intro hx
    rcases mem_cookieAttrs o _ hx with ⟨d, hd⟩ | ⟨u, hu⟩ | ⟨m, hm⟩ | ⟨h1, _⟩ |
      ⟨p, hp⟩ | ⟨s, hs⟩ | ⟨h1, _⟩ | ⟨_, h2⟩
    · exact absurd hd.symm (append_ne_of_not_pfx "; Domain=" d _ (by decide))
    · exact absurd hu.symm (append_ne_of_not_pfx "; Expires=" u _ (by decide))
    · exact absurd hm.symm (append_ne_of_not_pfx "; Max-Age=" m _ (by decide))
    · exact absurd h1 (by decide)
    · exact absurd hp.symm (append_ne_of_not_pfx "; Path=" p _ (by decide))
    · exact absurd hs.symm (append_ne_of_not_pfx "; SameSite=" s _ (by decide))
    · exact absurd h1 (by decide)
    · exact h2
  · intro h
    simp [cookieAttrs, h]

theorem no_false_flag (o : SetWebCookieOptions) (t : String)
    (ht : t = "; Partitioned=false" ∨ t = "; Secure=false" ∨ t = "; HttpOnly=false") :
    t ∉ cookieAttrs o := by
  intro hx
  rcases mem_cookieAttrs o _ hx with ⟨d, hd⟩ | ⟨u, hu⟩ | ⟨m, hm⟩ | ⟨h1, _⟩ |
    ⟨p, hp⟩ | ⟨s, hs⟩ | ⟨h1, _⟩ | ⟨h1, _⟩ <;>
    rcases ht with rfl | rfl | rfl
  · exact absurd hd.symm (append_ne_of_not_pfx "; Domain=" d _ (by decide))
  · exact absurd hd.symm (append_ne_of_not_pfx "; Domain=" d _ (by decide))
  · exact absurd hd.symm (append_ne_of_not_pfx "; Domain=" d _ (by decide))
  · exact absurd hu.symm (append_ne_of_not_pfx "; Expires=" u _ (by decide))
  · exact absurd hu.symm (append_ne_of_not_pfx "; Expires=" u _ (by decide))
  · exact absurd hu.symm (append_ne_of_not_pfx "; Expires=" u _ (by decide))
  · exact absurd hm.symm (append_ne_of_not_pfx "; Max-Age=" m _ (by decide))
  · exact absurd hm.symm (append_ne_of_not_pfx "; Max-Age=" m _ (by decide))
  · exact absurd hm.symm (append_ne_of_not_pfx "; Max-Age=" m _ (by decide))
  · exact absurd h1 (by decide)
  · exact absurd h1 (by decide)
  · exact absurd h1 (by decide)
  · exact absurd hp.symm (append_ne_of_not_pfx "; Path=" p _ (by decide))
  · exact absurd hp.symm (append_ne_of_not_pfx "; Path=" p _ (by decide))
  · exact absurd hp.symm (append_ne_of_not_pfx "; Path=" p _ (by decide))
  · exact absurd hs.symm (append_ne_of_not_pfx "; SameSite=" s _ (by decide))
  · exact absurd hs.symm (append_ne_of_not_pfx "; SameSite=" s _ (by decide))
  · exact absurd hs.symm (append_ne_of_not_pfx "; SameSite=" s _ (by decide))
  · exact absurd h1 (by decide)
  · exact absurd h1 (by decide)
  · exact absurd h1 (by decide)
  · exact absurd h1 (by decide)
  · exact absurd h1 (by decide)
  · exact absurd h1 (by decide)

/-! ## Claim C6 -/

/-- C6: the boolean-flag attributes Partitioned, Secure and HttpOnly
appear, as the valueless `"; Name"`, exactly when the option is `true`;
no `"Attr=false"` is ever emitted; and serializing with `{secure: false}`
produces a string with no occurrence of `"Secure"` at all (for any key
and value not already containing `"Secure"`). -/
theorem c6_flag_emission (k v : String) (o : SetWebCookieOptions)
    (hk : ¬ "Secure".data <:+: k.data) (hv : ¬ "Secure".data <:+: v.data) :
    ("; Partitioned" ∈ cookieAttrs o ↔ o.partitioned = some true) ∧
    ("; Secure" ∈ cookieAttrs o ↔ o.secure = some true) ∧
    ("; HttpOnly" ∈ cookieAttrs o ↔ o.httpOnly = some true) ∧
    "; Partitioned=false" ∉ cookieAttrs o ∧
    "; Secure=false" ∉ cookieAttrs o ∧
    "; HttpOnly=false" ∉ cookieAttrs o ∧
    ¬ ("Secure".data <:+: (_server k v (some { secure := some false })).data) := by
  refine ⟨partitioned_mem_iff o, secure_mem_iff o, httpOnly_mem_iff o,
    no_false_flag o _ (Or.inl rfl), no_false_flag o _ (Or.inr (Or.inl rfl)),
    no_false_flag o _ (Or.inr (Or.inr rfl)), ?_⟩
  have hserv : _server k v (some { secure := some false })
      = k ++ "=" ++ encodeURIComponent v := by
    simp [_server]
  rw [hserv]
  intro hh
  have hdata : (k ++ "=" ++ encodeURIComponent v).data
      = k.data ++ '=' :: encodeList v.data := by
    rw [String.data_append, String.data_append, List.append_assoc]
    rfl
  rw [hdata] at hh
  rcases infix_append_cons _ k.data (encodeList v.data) '=' (by decide) hh with h1 | h2
  · exact hk h1
  · exact secChars_not_infix_encodeList v.data hv h2

/-- C6 witness: concrete key and value free of `"Secure"`. -/
theorem c6_witness :
    ¬ ("Secure".data <:+: (_server "sid" "tok" (some { secure := some false })).data) :=
  (c6_flag_emission "sid" "tok" {} (by decide) (by decide)).2.2.2.2.2.2

end Pastry
